import Mathlib

/-!
Verification of the ltsu resumable multipart upload engine against its
natural-language specification.

The definitions below are a shallow embedding of the TypeScript sources:

* part geometry and the size guards come from src/upload/upload.ts
  (function upload and queuePartUploadTask);
* the Glacier tree hash comes from src/service/AWSS3Glacier.ts
  (buildFinalTreeHash and calculateTreeAndLinearHashesOfPart);
* the exponential backoff comes from src/upload/upload.ts
  (MAX_RETRY_DELAY and the queued task body);
* the session check and the enumerate/upload/finalise skeleton come from
  the latest revision of upload.ts (the revision bundled alongside
  src/util/sha1File.ts, which matches src/main.ts and the Context that
  carries file.lastModified and force);
* the Glacier part size policy comes from nextPowerOfTwo and idealPartSize
  (src/main/ts/service/AWSGlacier/AWSGlacier.ts and
  src/service/AWSS3Glacier.ts);
* percent encoding comes from percentEncodeBytes in the AWS SigV4 signer.

JavaScript numbers are modelled as exact arithmetic: byte offsets, sizes and
counters are naturals (they stay far below 2^53 in every reachable state),
and the part size policy is modelled over the rationals.
-/

namespace Ltsu

/-! ## Part geometry (src/upload/upload.ts)

The source computes, for a file of size S and chosen part size P:

  const partsNeeded = Math.ceil(ctx.file.size / partSize);

and inside queuePartUploadTask, for part number n:

  const start = part * partSize;
  const end = Math.min(ctx.file.size, (part + 1) * partSize) - 1;

For naturals with 1 <= P, Math.ceil(S / P) = (S + P - 1) / P with natural
division. -/

/-- partsNeeded from upload.ts: Math.ceil(size / partSize) over naturals. -/
def partsNeeded (size partSize : ℕ) : ℕ := (size + partSize - 1) / partSize

/-- start of part n in queuePartUploadTask: part * partSize. -/
def partStart (partSize n : ℕ) : ℕ := n * partSize

/-- end of part n in queuePartUploadTask:
Math.min(size, (part + 1) * partSize) - 1. -/
def partEnd (size partSize n : ℕ) : ℕ := min size ((n + 1) * partSize) - 1

/-- the byte length of part n, namely end - start + 1. -/
def partLength (size partSize n : ℕ) : ℕ :=
  partEnd size partSize n - partStart partSize n + 1

/-- the basic division facts about partsNeeded used throughout. -/
theorem partsNeeded_bounds (S P : ℕ) (hS : 1 ≤ S) (hP : 1 ≤ P) :
    S ≤ partsNeeded S P * P ∧ partsNeeded S P * P ≤ S + P - 1 ∧
      1 ≤ partsNeeded S P := by
  have hd := Nat.div_add_mod' (S + P - 1) P
  have hm : (S + P - 1) % P < P := Nat.mod_lt _ (by omega)
  unfold partsNeeded
  refine ⟨by omega, by omega, ?_⟩
  by_contra h
  have h0 : (S + P - 1) / P = 0 := Nat.lt_one_iff.mp (Nat.not_le.mp h)
  rw [h0, Nat.zero_mul] at hd
  omega

/-- every part strictly before the last one starts below the file size. -/
theorem partStart_lt_size (S P n : ℕ) (hS : 1 ≤ S) (hP : 1 ≤ P)
    (hn : n < partsNeeded S P) : n * P < S := by
  obtain ⟨h1, h2, h3⟩ := partsNeeded_bounds S P hS hP
  have hmul : (n + 1) * P ≤ partsNeeded S P * P :=
    Nat.mul_le_mul_right P (by omega)
  have he : (n + 1) * P = n * P + P := by ring
  omega

/-- running sum of part lengths: the first m parts cover min S (m * P)
bytes. -/
theorem partLength_sum_below (S P : ℕ) (hS : 1 ≤ S) (hP : 1 ≤ P) :
    ∀ m, m ≤ partsNeeded S P →
      (∑ n ∈ Finset.range m, partLength S P n) = min S (m * P) := by
  intro m
  induction m with
  | zero => simp
  | succ m ih =>
    intro hm
    rw [Finset.sum_range_succ, ih (by omega)]
    have hlt : m * P < S := partStart_lt_size S P m hS hP (by omega)
    have he : (m + 1) * P = m * P + P := by ring
    unfold partLength partEnd partStart
    rw [min_eq_right (le_of_lt hlt)]
    rcases le_total S ((m + 1) * P) with h | h
    · rw [min_eq_left h]
      omega
    · rw [min_eq_right h]
      omega

/-- C1. For every file size S >= 1 and part size P >= 1 with
parts = ceil(S/P): each part n < parts enqueued by upload covers
start = n * P and end = min(S - 1, (n+1) * P - 1); every part except
possibly the last has exactly P bytes; the last part has between 1 and P
bytes; and the part lengths over all n sum to S. -/
theorem upload_part_geometry (S P : ℕ) (hS : 1 ≤ S) (hP : 1 ≤ P) :
    (∀ n, n < partsNeeded S P →
        partStart P n = n * P ∧
        partEnd S P n = min (S - 1) ((n + 1) * P - 1)) ∧
    (∀ n, n + 1 < partsNeeded S P → partLength S P n = P) ∧
    (1 ≤ partLength S P (partsNeeded S P - 1) ∧
        partLength S P (partsNeeded S P - 1) ≤ P) ∧
    (∑ n ∈ Finset.range (partsNeeded S P), partLength S P n) = S := by
  obtain ⟨h1, h2, h3⟩ := partsNeeded_bounds S P hS hP
  refine ⟨?_, ?_, ?_, ?_⟩
  · intro n hn
    refine ⟨rfl, ?_⟩
    unfold partEnd
    have he : (n + 1) * P = n * P + P := by ring
    have hlt : n * P < S := partStart_lt_size S P n hS hP hn
    rcases le_total S ((n + 1) * P) with h | h
    · rw [min_eq_left h, min_eq_left (by omega)]
    · rw [min_eq_right h, min_eq_right (by omega)]
  · intro n hn
    have hlt : (n + 1) * P < S := by
      have := partStart_lt_size S P (n + 1) hS hP (by omega)
      exact this
    have hlt0 : n * P < S := partStart_lt_size S P n hS hP (by omega)
    have he : (n + 1) * P = n * P + P := by ring
    unfold partLength partEnd partStart
    rw [min_eq_right (by omega)]
    omega
  · set q := partsNeeded S P with hq
    have hq1 : q - 1 < q := by omega
    have hlt : (q - 1) * P < S := partStart_lt_size S P (q - 1) hS hP hq1
    have he : (q - 1 + 1) * P = (q - 1) * P + P := by ring
    have he2 : (q - 1 + 1) = q := by omega
    rw [he2] at he
    unfold partLength partEnd partStart
    rw [he2, min_eq_left (by omega)]
    omega
  · rw [partLength_sum_below S P hS hP (partsNeeded S P) (le_refl _)]
    exact min_eq_left h1

/-- concrete instance of C1 at S = 10, P = 4 (three parts of sizes
4, 4, 2). -/
theorem upload_part_geometry_witness :
    (1 ≤ 10 ∧ 1 ≤ 4) ∧
      ((∀ n, n < partsNeeded 10 4 →
          partStart 4 n = n * 4 ∧
          partEnd 10 4 n = min (10 - 1) ((n + 1) * 4 - 1)) ∧
      (∀ n, n + 1 < partsNeeded 10 4 → partLength 10 4 n = 4) ∧
      (1 ≤ partLength 10 4 (partsNeeded 10 4 - 1) ∧
          partLength 10 4 (partsNeeded 10 4 - 1) ≤ 4) ∧
      (∑ n ∈ Finset.range (partsNeeded 10 4), partLength 10 4 n) = 10) :=
  ⟨⟨by decide, by decide⟩, upload_part_geometry 10 4 (by decide) (by decide)⟩

/-! ## Startup size guards (src/upload/upload.ts and the backend limits)

The source guards, after computing partsNeeded:

  if (partsNeeded < 1) { throw new Error(`File is too small`); }
  if (partsNeeded > svc.maxParts) { throw new Error(`File is too big ...`); }

Each Service record declares minParts (BackblazeB2.ts: minParts: 2,
AWSS3Glacier.ts: minParts: 1), but upload never reads svc.minParts. -/

/-- minParts declared by the BackblazeB2 service record. -/
def BackblazeB2.minParts : ℕ := 2

/-- maxParts declared by the BackblazeB2 service record. -/
def BackblazeB2.maxParts : ℕ := 10000

/-- minPartSize declared by the BackblazeB2 service record: 5 MiB. -/
def BackblazeB2.minPartSize : ℕ := 1024 * 1024 * 5

/-- the pair of startup size guards in upload, returning the accepted
partsNeeded or the error message thrown. -/
def sizeGuards (size partSize maxParts : ℕ) : Except String ℕ :=
  let pn := partsNeeded size partSize
  if pn < 1 then Except.error "File is too small"
  else if pn > maxParts then Except.error "File is too big"
  else Except.ok pn

/-- C10. The file-too-small branch of upload is unreachable: for every
file size >= 1 and part size >= 1, partsNeeded >= 1, so the guard
partsNeeded < 1 never fires and the error is never thrown. -/
theorem file_too_small_unreachable (size partSize : ℕ)
    (hS : 1 ≤ size) (hP : 1 ≤ partSize) :
    1 ≤ partsNeeded size partSize ∧
      ∀ maxParts, sizeGuards size partSize maxParts ≠
        Except.error "File is too small" := by
  obtain ⟨-, -, h3⟩ := partsNeeded_bounds size partSize hS hP
  refine ⟨h3, fun maxParts => ?_⟩
  unfold sizeGuards
  simp only [if_neg (by omega : ¬ partsNeeded size partSize < 1)]
  split
  · intro h
    simp at h
  · intro h
    simp at h

/-- concrete instance of C10 at size 1, partSize 1. -/
theorem file_too_small_unreachable_witness :
    (1 ≤ 1 ∧ 1 ≤ 1) ∧
      (1 ≤ partsNeeded 1 1 ∧
        ∀ maxParts, sizeGuards 1 1 maxParts ≠
          Except.error "File is too small") :=
  ⟨⟨le_refl 1, le_refl 1⟩, file_too_small_unreachable 1 1 (le_refl 1) (le_refl 1)⟩

/-- C4. The code never compares partsNeeded against backend.minParts: the
guard is partsNeeded < 1. A Backblaze B2 upload whose file fits in a
single part (size = partSize = 5 MiB, so partsNeeded = 1 < minParts = 2)
is accepted by the startup guards instead of being rejected as too
small. -/
theorem b2_single_part_not_rejected :
    partsNeeded 5242880 5242880 = 1 ∧
      partsNeeded 5242880 5242880 < BackblazeB2.minParts ∧
      sizeGuards 5242880 5242880 BackblazeB2.maxParts = Except.ok 1 := by
  exact ⟨by rfl, by decide, by rfl⟩

/-! ## Glacier tree hash (src/service/AWSS3Glacier.ts)

SHA-256 digests are modelled by the free algebra HashVal: a leaf stands
for the SHA-256 digest of one 1 MiB chunk (the final chunk may be
shorter), and comb l r stands for sha256(l concatenated with r), exactly
the combination crypto.createHash("sha256").update(Buffer.concat([l, r]))
used by both buildFinalTreeHash and calculateTreeAndLinearHashesOfPart.
Proving the combination trees equal in the free algebra proves the digests
equal for every choice of hash function. -/

/-- a hash value: a leaf digest or sha256 of the concatenation of two
hash values. -/
inductive HashVal where
  | leaf : ℕ → HashVal
  | comb : HashVal → HashVal → HashVal
deriving DecidableEq, Repr

/-- one entry of the stack kept by calculateTreeAndLinearHashesOfPart:
the JS object { level, hash }. The level is an integer because the final
merge pushes level -1. -/
structure TreeEntry where
  level : ℤ
  hash : HashVal
deriving DecidableEq, Repr

/-- the inner while loop of calculateTreeAndLinearHashesOfPart: while the
top two stack entries share a level, pop both and push their combination
one level up. The stack top is the head of the list. -/
def mergeEqualTops : List TreeEntry → List TreeEntry
  | r :: l :: rest =>
    if r.level = l.level then
      mergeEqualTops (⟨r.level + 1, HashVal.comb l.hash r.hash⟩ :: rest)
    else r :: l :: rest
  | s => s
termination_by s => s.length

/-- pushing one entry as the source does: push, then run the merge loop. -/
def pushEntry (s : List TreeEntry) (lvl : ℤ) (h : HashVal) : List TreeEntry :=
  mergeEqualTops (⟨lvl, h⟩ :: s)

/-- the chunk loop of calculateTreeAndLinearHashesOfPart, generalised over
the level at which digests are pushed; the source always pushes at
level 1. -/
def pushAll (lvl : ℤ) (s : List TreeEntry) (leaves : List HashVal) :
    List TreeEntry :=
  leaves.foldl (fun s h => pushEntry s lvl h) s

/-- the final while loop of calculateTreeAndLinearHashesOfPart: pop the
top two entries and push their combination with level -1, ignoring levels,
until at most one entry remains. -/
def finalMerge : List TreeEntry → List TreeEntry
  | r :: l :: rest =>
    finalMerge (⟨-1, HashVal.comb l.hash r.hash⟩ :: rest)
  | s => s
termination_by s => s.length

/-- the tree hash computed by calculateTreeAndLinearHashesOfPart over the
given ordered leaf digests (tree[0].hash at the end; none when there are
no chunks, where the source would read an empty array). -/
def calculateTreeHashOfPart (leaves : List HashVal) : Option HashVal :=
  (finalMerge (pushAll 1 [] leaves)).head?.map TreeEntry.hash

/-- one pass of the loop body of buildFinalTreeHash: combine adjacent
pairs; an odd tail is carried forward unchanged. -/
def pairUpHashes : List HashVal → List HashVal
  | a :: b :: rest => HashVal.comb a b :: pairUpHashes rest
  | s => s
termination_by s => s.length

/-- length of one pairing pass. -/
theorem pairUpHashes_length :
    ∀ l : List HashVal, (pairUpHashes l).length = (l.length + 1) / 2
  | [] => by simp [pairUpHashes]
  | [_] => by simp [pairUpHashes]
  | _ :: _ :: rest => by
    rw [pairUpHashes]
    simp only [List.length_cons, pairUpHashes_length rest]
    omega
termination_by l => l.length

/-- buildFinalTreeHash from AWSS3Glacier.ts: repeat the pairing pass while
more than one hash remains; none for the empty vector (where the source
would return undefined). -/
def buildFinalTreeHash (hashes : List HashVal) : Option HashVal :=
  if _h : hashes.length ≤ 1 then hashes.head?
  else buildFinalTreeHash (pairUpHashes hashes)
termination_by hashes.length
decreasing_by
  rw [pairUpHashes_length]
  omega

/-- the hash values held on a stack, top first. -/
def stackHashes (s : List TreeEntry) : List HashVal := s.map TreeEntry.hash

/-- pop-pop-combine on bare hash values; finalMerge performs exactly this
computation once levels are erased. -/
def combineAll : List HashVal → List HashVal
  | r :: l :: rest => combineAll (HashVal.comb l r :: rest)
  | s => s
termination_by s => s.length

/-- finalMerge computes combineAll on the hashes of the stack. -/
theorem stackHashes_finalMerge :
    ∀ s : List TreeEntry,
      stackHashes (finalMerge s) = combineAll (stackHashes s)
  | [] => by simp [finalMerge, combineAll, stackHashes]
  | [e] => by simp [finalMerge, combineAll, stackHashes]
  | r :: l :: rest => by
    rw [finalMerge,
      stackHashes_finalMerge (⟨-1, HashVal.comb l.hash r.hash⟩ :: rest)]
    simp only [stackHashes, List.map_cons]
    conv_rhs => rw [combineAll]
termination_by s => s.length

/-- the merge loop does not change the combineAll value of the stack
hashes: each merge step performs one pop-pop-combine that combineAll
would perform anyway. -/
theorem combineAll_mergeEqualTops :
    ∀ s : List TreeEntry,
      combineAll (stackHashes (mergeEqualTops s)) = combineAll (stackHashes s)
  | [] => by simp [mergeEqualTops]
  | [e] => by simp [mergeEqualTops]
  | r :: l :: rest => by
    rw [mergeEqualTops]
    by_cases h : r.level = l.level
    · rw [if_pos h,
        combineAll_mergeEqualTops (⟨r.level + 1, HashVal.comb l.hash r.hash⟩ :: rest)]
      simp only [stackHashes, List.map_cons]
      conv_rhs => rw [combineAll]
    · rw [if_neg h]
termination_by s => s.length

/-- pushing onto a stack whose top has a different level merges nothing. -/
theorem mergeEqualTops_no_merge (e : TreeEntry) (s : List TreeEntry)
    (h : ∀ l, s.head? = some l → e.level ≠ l.level) :
    mergeEqualTops (e :: s) = e :: s := by
  cases s with
  | nil => simp [mergeEqualTops]
  | cons l rest => rw [mergeEqualTops, if_neg (h l rfl)]

/-- every entry of the stack has level at least k. -/
def MinLevel (k : ℤ) (s : List TreeEntry) : Prop := ∀ e ∈ s, k ≤ e.level

/-- the merge loop preserves a lower bound on levels. -/
theorem minLevel_mergeEqualTops (k : ℤ) :
    ∀ s : List TreeEntry, MinLevel k s → MinLevel k (mergeEqualTops s)
  | [], h => by simpa [mergeEqualTops] using h
  | [e], h => by simpa [mergeEqualTops] using h
  | r :: l :: rest, h => by
    rw [mergeEqualTops]
    by_cases hrl : r.level = l.level
    · rw [if_pos hrl]
      apply minLevel_mergeEqualTops
      intro e he
      rcases List.mem_cons.mp he with rfl | he
      · have hr : k ≤ r.level := h r (by simp)
        simp only []
        omega
      · exact h e (by simp [he])
    · rw [if_neg hrl]
      exact h
termination_by s => s.length

/-- pushing an entry at a level at least k preserves the bound. -/
theorem minLevel_pushEntry (k lvl : ℤ) (h : HashVal) (s : List TreeEntry)
    (hs : MinLevel k s) (hl : k ≤ lvl) : MinLevel k (pushEntry s lvl h) := by
  apply minLevel_mergeEqualTops
  intro e he
  rcases List.mem_cons.mp he with rfl | he
  · exact hl
  · exact hs e he

/-- pushing a whole chunk list at a level at least k preserves the
bound. -/
theorem minLevel_pushAll (k lvl : ℤ) (hl : k ≤ lvl) :
    ∀ (l : List HashVal) (s : List TreeEntry), MinLevel k s →
      MinLevel k (pushAll lvl s l)
  | [], _, hs => hs
  | a :: rest, s, hs =>
    minLevel_pushAll k lvl hl rest (pushEntry s lvl a)
      (minLevel_pushEntry k lvl a s hs hl)

/-- shifting every level of a stack by a constant. -/
def shiftStack (d : ℤ) (s : List TreeEntry) : List TreeEntry :=
  s.map fun e => ⟨e.level + d, e.hash⟩

/-- shifting levels does not change the hashes of a stack. -/
theorem stackHashes_shiftStack (d : ℤ) (s : List TreeEntry) :
    stackHashes (shiftStack d s) = stackHashes s := by
  simp [stackHashes, shiftStack, List.map_map, Function.comp]

/-- the merge loop commutes with a uniform level shift: it only ever
compares levels for equality and increments them. -/
theorem mergeEqualTops_shiftStack (d : ℤ) :
    ∀ s : List TreeEntry,
      mergeEqualTops (shiftStack d s) = shiftStack d (mergeEqualTops s)
  | [] => by simp [mergeEqualTops, shiftStack]
  | [e] => by simp [mergeEqualTops, shiftStack]
  | r :: l :: rest => by
    simp only [shiftStack, List.map_cons]
    rw [mergeEqualTops]
    conv_rhs => rw [mergeEqualTops]
    by_cases h : r.level = l.level
    · rw [if_pos (by simp [h]), if_pos h]
      have he : r.level + d + 1 = r.level + 1 + d := by ring
      have := mergeEqualTops_shiftStack d
        (⟨r.level + 1, HashVal.comb l.hash r.hash⟩ :: rest)
      simp only [shiftStack, List.map_cons] at this
      rw [← this, he]
    · rw [if_neg (by simp [h]), if_neg h]
      simp [shiftStack]
termination_by s => s.length

/-- pushing at shifted levels is the shift of pushing. -/
theorem pushAll_shiftStack (d lvl : ℤ) :
    ∀ (l : List HashVal) (s : List TreeEntry),
      pushAll (lvl + d) (shiftStack d s) l = shiftStack d (pushAll lvl s l)
  | [], _ => rfl
  | a :: rest, s => by
    show pushAll (lvl + d) (pushEntry (shiftStack d s) (lvl + d) a) rest
        = shiftStack d (pushAll lvl (pushEntry s lvl a) rest)
    rw [← pushAll_shiftStack d lvl rest (pushEntry s lvl a)]
    congr 1
    show mergeEqualTops (⟨lvl + d, a⟩ :: shiftStack d s)
        = shiftStack d (mergeEqualTops (⟨lvl, a⟩ :: s))
    rw [← mergeEqualTops_shiftStack d (⟨lvl, a⟩ :: s)]
    rfl

/-- pushing two digests at level lvl onto a stack whose entries all sit
strictly above lvl is the same as pushing their combination at
lvl + 1: the first push cannot merge, the second merges once with the
first and then continues exactly like a push at lvl + 1. -/
theorem pushEntry_pushEntry (s : List TreeEntry) (lvl : ℤ) (a b : HashVal)
    (hs : MinLevel (lvl + 1) s) :
    pushEntry (pushEntry s lvl a) lvl b
      = pushEntry s (lvl + 1) (HashVal.comb a b) := by
  have h1 : pushEntry s lvl a = ⟨lvl, a⟩ :: s := by
    apply mergeEqualTops_no_merge
    intro l hl
    have hm : l ∈ s := List.mem_of_mem_head? hl
    have := hs l hm
    simp only []
    omega
  rw [h1]
  show mergeEqualTops (⟨lvl, b⟩ :: ⟨lvl, a⟩ :: s)
      = pushEntry s (lvl + 1) (HashVal.comb a b)
  rw [mergeEqualTops, if_pos rfl]
  rfl

/-- processing an even-length chunk list at level lvl over a stack that
sits strictly above lvl equals processing the paired-up list at
lvl + 1. -/
theorem pushAll_even (lvl : ℤ) :
    ∀ (l : List HashVal), l.length % 2 = 0 →
      ∀ s : List TreeEntry, MinLevel (lvl + 1) s →
        pushAll lvl s l = pushAll (lvl + 1) s (pairUpHashes l)
  | [], _, _, _ => by simp [pairUpHashes, pushAll]
  | [_], h, _, _ => by simp at h
  | a :: b :: rest, h, s, hs => by
    have hlen : rest.length % 2 = 0 := by
      simp only [List.length_cons] at h
      omega
    rw [pairUpHashes]
    show pushAll lvl (pushEntry (pushEntry s lvl a) lvl b) rest
        = pushAll (lvl + 1) (pushEntry s (lvl + 1) (HashVal.comb a b))
            (pairUpHashes rest)
    rw [pushEntry_pushEntry s lvl a b hs]
    exact pushAll_even lvl rest hlen _
      (minLevel_pushEntry (lvl + 1) (lvl + 1) _ s hs (le_refl _))
termination_by l => l.length

/-- the merge loop never empties a nonempty stack. -/
theorem mergeEqualTops_ne_nil :
    ∀ s : List TreeEntry, s ≠ [] → mergeEqualTops s ≠ []
  | [], h => absurd rfl h
  | [e], _ => by simp [mergeEqualTops]
  | r :: l :: rest, _ => by
    rw [mergeEqualTops]
    by_cases h : r.level = l.level
    · rw [if_pos h]
      exact mergeEqualTops_ne_nil _ (by simp)
    · rw [if_neg h]
      simp
termination_by s => s.length

/-- a push always leaves a nonempty stack. -/
theorem pushEntry_ne_nil (s : List TreeEntry) (lvl : ℤ) (h : HashVal) :
    pushEntry s lvl h ≠ [] :=
  mergeEqualTops_ne_nil _ (by simp)

/-- processing a nonempty chunk list leaves a nonempty stack. -/
theorem pushAll_ne_nil (lvl : ℤ) :
    ∀ (l : List HashVal) (s : List TreeEntry), l ≠ [] → pushAll lvl s l ≠ []
  | [], _, h => absurd rfl h
  | [a], s, _ => pushEntry_ne_nil s lvl a
  | a :: b :: rest, s, _ =>
    pushAll_ne_nil lvl (b :: rest) (pushEntry s lvl a) (by simp)

/-- one pairing pass over an even-length list leaves an appended odd tail
unchanged at the end. -/
theorem pairUpHashes_append_even :
    ∀ l : List HashVal, l.length % 2 = 0 → ∀ c : HashVal,
      pairUpHashes (l ++ [c]) = pairUpHashes l ++ [c]
  | [], _, c => by simp [pairUpHashes]
  | [_], h, c => by simp at h
  | a :: b :: rest, h, c => by
    have hlen : rest.length % 2 = 0 := by
      simp only [List.length_cons] at h
      omega
    rw [List.cons_append, List.cons_append, pairUpHashes,
      pairUpHashes_append_even rest hlen c]
    conv_rhs => rw [pairUpHashes]
    simp
termination_by l => l.length

/-- unfolding step of buildFinalTreeHash when at least two hashes
remain. -/
theorem buildFinalTreeHash_step (l : List HashVal) (h : 2 ≤ l.length) :
    buildFinalTreeHash l = buildFinalTreeHash (pairUpHashes l) := by
  rw [buildFinalTreeHash, dif_neg (by omega)]

/-- the part tree hash as combineAll over the stacked hashes. -/
theorem calculateTreeHashOfPart_eq (leaves : List HashVal) :
    calculateTreeHashOfPart leaves
      = (combineAll (stackHashes (pushAll 1 [] leaves))).head? := by
  unfold calculateTreeHashOfPart
  rw [← stackHashes_finalMerge]
  unfold stackHashes
  rw [List.head?_map]

/-- the online stack-merging tree hash equals the level-by-level pairwise
combine, for every ordered list of leaf digests. -/
theorem calculateTreeHash_eq_buildFinal (leaves : List HashVal) :
    calculateTreeHashOfPart leaves = buildFinalTreeHash leaves := by
  match leaves with
  | [] => simp [calculateTreeHashOfPart, pushAll, finalMerge,
      buildFinalTreeHash]
  | [a] =>
    rw [calculateTreeHashOfPart_eq]
    show (combineAll (stackHashes (pushEntry [] 1 a))).head?
        = buildFinalTreeHash [a]
    rw [show pushEntry [] 1 a = [⟨1, a⟩] from by simp [pushEntry, mergeEqualTops]]
    simp [stackHashes, combineAll, buildFinalTreeHash]
  | a :: b :: rest =>
    have hlen2 : 2 ≤ (a :: b :: rest).length := by simp
    have hpair : (pairUpHashes (a :: b :: rest)).length
        < (a :: b :: rest).length := by
      rw [pairUpHashes_length]
      simp only [List.length_cons]
      omega
    have ih := calculateTreeHash_eq_buildFinal (pairUpHashes (a :: b :: rest))
    rw [buildFinalTreeHash_step _ hlen2, ← ih]
    rcases Nat.even_or_odd (a :: b :: rest).length with he | ho
    · -- even number of leaves: the stacks agree up to a level shift
      have hmod : (a :: b :: rest).length % 2 = 0 := Nat.even_iff.mp he
      rw [calculateTreeHashOfPart_eq, calculateTreeHashOfPart_eq]
      rw [pushAll_even 1 _ hmod [] (by intro e he2; simp at he2)]
      have hshift := pushAll_shiftStack 1 1 (pairUpHashes (a :: b :: rest)) []
      rw [show shiftStack 1 [] = [] from rfl] at hshift
      rw [hshift, stackHashes_shiftStack]
    · -- odd number of leaves: split off the carried last leaf
      have hmod : (a :: b :: rest).length % 2 = 1 := Nat.odd_iff.mp ho
      have hne : (a :: b :: rest) ≠ [] := by simp
      set l0 := (a :: b :: rest).dropLast with hl0
      set c := (a :: b :: rest).getLast hne with hc
      have hsplit : a :: b :: rest = l0 ++ [c] :=
        (List.dropLast_append_getLast hne).symm
      have hl0len : l0.length % 2 = 0 := by
        have : l0.length = (a :: b :: rest).length - 1 := by
          rw [hl0, List.length_dropLast]
        omega
      have hl0ne : l0 ≠ [] := by
        have : l0.length = (a :: b :: rest).length - 1 := by
          rw [hl0, List.length_dropLast]
        intro hnil
        rw [hnil] at this
        simp only [List.length_nil, List.length_cons] at this
        omega
      rw [calculateTreeHashOfPart_eq, calculateTreeHashOfPart_eq, hsplit,
        pairUpHashes_append_even l0 hl0len c]
      unfold pushAll
      rw [List.foldl_append, List.foldl_append]
      show (combineAll (stackHashes
          (pushEntry (pushAll 1 [] l0) 1 c))).head?
        = (combineAll (stackHashes
          (pushEntry (pushAll 1 [] (pairUpHashes l0)) 1 c))).head?
      have hs2 : MinLevel 2 (pushAll 1 [] l0) := by
        rw [pushAll_even 1 l0 hl0len [] (by intro e he2; simp at he2)]
        exact minLevel_pushAll 2 2 (le_refl _) _ [] (by intro e he2; simp at he2)
      have hsne : pushAll 1 [] l0 ≠ [] := pushAll_ne_nil 1 l0 [] hl0ne
      have hpush : pushEntry (pushAll 1 [] l0) 1 c
          = ⟨1, c⟩ :: pushAll 1 [] l0 := by
        apply mergeEqualTops_no_merge
        intro l hl
        have := hs2 l (List.mem_of_mem_head? hl)
        simp only []
        omega
      have hsh : stackHashes (pushAll 1 [] l0)
          = stackHashes (pushAll 1 [] (pairUpHashes l0)) := by
        rw [pushAll_even 1 l0 hl0len [] (by intro e he2; simp at he2)]
        have hshift := pushAll_shiftStack 1 1 (pairUpHashes l0) []
        rw [show shiftStack 1 [] = [] from rfl] at hshift
        rw [hshift, stackHashes_shiftStack]
      rw [hpush]
      conv_rhs =>
        rw [show pushEntry (pushAll 1 [] (pairUpHashes l0)) 1 c
          = mergeEqualTops (⟨1, c⟩ :: pushAll 1 [] (pairUpHashes l0)) from rfl]
      rw [combineAll_mergeEqualTops]
      simp only [stackHashes, List.map_cons]
      rw [show List.map TreeEntry.hash (pushAll 1 [] l0)
          = stackHashes (pushAll 1 [] l0) from rfl, hsh]
      rfl
termination_by leaves.length
decreasing_by
  exact hpair

/-- C2. For every non-empty sequence of leaf chunk digests of a byte
range, the tree hash computed by the online stack-merging algorithm of
calculateTreeAndLinearHashesOfPart (push each leaf digest at level 1,
merge equal-level tops, then pop-pop-combine ignoring levels until one
remains) equals the level-by-level pairwise combine of buildFinalTreeHash
(odd tail carried forward unchanged at each level) applied to the ordered
list of those digests. -/
theorem treeHash_stack_eq_pairwise (leaves : List HashVal)
    (_hne : leaves ≠ []) :
    calculateTreeHashOfPart leaves = buildFinalTreeHash leaves :=
  calculateTreeHash_eq_buildFinal leaves

/-- concrete instance of C2 on five leaf digests. -/
theorem treeHash_stack_eq_pairwise_witness :
    ([HashVal.leaf 0, HashVal.leaf 1, HashVal.leaf 2, HashVal.leaf 3,
        HashVal.leaf 4] : List HashVal) ≠ [] ∧
      calculateTreeHashOfPart
          [HashVal.leaf 0, HashVal.leaf 1, HashVal.leaf 2, HashVal.leaf 3,
            HashVal.leaf 4]
        = buildFinalTreeHash
          [HashVal.leaf 0, HashVal.leaf 1, HashVal.leaf 2, HashVal.leaf 3,
            HashVal.leaf 4] :=
  ⟨by simp, treeHash_stack_eq_pairwise _ (by simp)⟩

/-! ## Exponential backoff (src/upload/upload.ts)

The scheduler keeps one shared counter:

  let consecutiveFailures = 0;

Each queued task body begins with

  await wait(Math.min(MAX_RETRY_DELAY, 2 ** consecutiveFailures));

where MAX_RETRY_DELAY = 60 * 5. On a caught upload error the task runs
consecutiveFailures++ and queuePartUploadTask(part) — re-enqueueing the
same part with no attempt cap — and returns; on success it runs
consecutiveFailures = 0. -/

/-- MAX_RETRY_DELAY from upload.ts: 60 * 5 seconds. -/
def MAX_RETRY_DELAY : ℕ := 60 * 5

/-- the wait performed at the start of every task body when the shared
failure counter holds f. -/
def backoffWait (f : ℕ) : ℕ := min MAX_RETRY_DELAY (2 ^ f)

/-- outcome of one part-upload attempt. -/
inductive TaskOutcome where
  | success : TaskOutcome
  | failure : TaskOutcome
deriving DecidableEq, Repr

/-- effect of one finished task body on the shared counter and the queue:
the new value of consecutiveFailures together with the list of parts the
task re-enqueues. -/
def taskStep (f part : ℕ) : TaskOutcome → ℕ × List ℕ
  | TaskOutcome.success => (0, [])
  | TaskOutcome.failure => (f + 1, [part])

/-- the shared counter after a sequence of attempt outcomes, starting
from zero. -/
def failuresAfter (outcomes : List TaskOutcome) : ℕ :=
  outcomes.foldl (fun f o => (taskStep f 0 o).1) 0

/-- folding the counter over n consecutive failures adds n. -/
theorem foldl_failure_replicate (n : ℕ) :
    ∀ f : ℕ, (List.replicate n TaskOutcome.failure).foldl
      (fun f o => (taskStep f 0 o).1) f = f + n := by
  induction n with
  | zero => intro f; simp
  | succ n ih =>
    intro f
    rw [List.replicate_succ, List.foldl_cons, ih]
    simp [taskStep]
    omega

/-- C5. Every part-upload task waits min(300, 2^f) seconds before its
body, where f is the single shared failure counter; a failure increments
f and re-enqueues the same part unconditionally, a success resets f to 0;
hence in an uninterrupted failure streak the wait before attempt k is
min(300, 2^(k-1)), and after any success the next wait is min(300, 1). -/
theorem backoff_policy (f part k : ℕ) (_hk : 1 ≤ k) :
    MAX_RETRY_DELAY = 300 ∧
    backoffWait f = min 300 (2 ^ f) ∧
    taskStep f part TaskOutcome.failure = (f + 1, [part]) ∧
    taskStep f part TaskOutcome.success = (0, []) ∧
    backoffWait (failuresAfter
      (List.replicate (k - 1) TaskOutcome.failure)) = min 300 (2 ^ (k - 1)) ∧
    (∀ pre : List TaskOutcome,
      backoffWait (failuresAfter (pre ++ [TaskOutcome.success]))
        = min 300 1) := by
  refine ⟨rfl, rfl, rfl, rfl, ?_, ?_⟩
  · unfold failuresAfter
    rw [foldl_failure_replicate, Nat.zero_add]
    rfl
  · intro pre
    unfold failuresAfter
    rw [List.foldl_append]
    rfl

/-- concrete instance of C5 at k = 4: the fourth attempt of a failure
streak waits min(300, 8) = 8 seconds. -/
theorem backoff_policy_witness :
    1 ≤ 4 ∧
      (MAX_RETRY_DELAY = 300 ∧
      backoffWait 3 = min 300 (2 ^ 3) ∧
      taskStep 3 7 TaskOutcome.failure = (3 + 1, [7]) ∧
      taskStep 3 7 TaskOutcome.success = (0, []) ∧
      backoffWait (failuresAfter
        (List.replicate (4 - 1) TaskOutcome.failure)) = min 300 (2 ^ (4 - 1)) ∧
      (∀ pre : List TaskOutcome,
        backoffWait (failuresAfter (pre ++ [TaskOutcome.success]))
          = min 300 1)) :=
  ⟨by decide, backoff_policy 3 7 4 (by decide)⟩

/-! ## Session check and engine skeleton

The latest revision of upload.ts (the one matching src/main.ts, where the
Context carries file.lastModified and force) destructures the session —
resumed from disk or freshly created — and then runs, before loading any
part hash and before enqueueing any part:

  if (filePath !== ctx.file.path || fileLastChanged !== ctx.file.lastModified) {
    throw new Error(`Cannot resume upload as file has changed since last session`);
  }

No code ever reads ctx.force: main.ts parses --force into the Context and
nothing consumes it. Afterwards the engine loads the per-part hashes,
enqueues exactly the parts whose loaded hash is null (the entries() loop),
waits for the queue to drain, and calls completeUpload once with the
in-memory hash vector. -/

/-- the Session record (Context.ts of the latest revision). -/
structure Session where
  uploadId : String
  filePath : String
  fileLastChanged : String
  partSize : ℕ
  partsNeeded : ℕ
deriving DecidableEq, Repr

/-- the file part of the Context record. -/
structure FileRecord where
  path : String
  size : ℕ
  lastModified : String
deriving DecidableEq, Repr

/-- the slice of the Context record the session check can observe; force
is present (main.ts stores the parsed --force flag here) but, as the
definitions below show, never consulted. -/
structure UploadContext where
  file : FileRecord
  force : Bool
deriving DecidableEq, Repr

/-- the session file check of upload.ts, throwing when the session file
path or the recorded last-modified timestamp disagrees with the current
file. -/
def sessionFileCheck (ctx : UploadContext) (sess : Session) :
    Except String Unit :=
  if sess.filePath ≠ ctx.file.path ∨
      sess.fileLastChanged ≠ ctx.file.lastModified then
    Except.error "Cannot resume upload as file has changed since last session"
  else Except.ok ()

/-- the parts enqueued by the entries() loop of upload.ts: indices whose
loaded hash is null, in index order. -/
def pendingParts {β : Type} (loaded : List (Option β)) : List ℕ :=
  (loaded.enum.filter fun e => e.2.isNone).map Prod.fst

/-- one worker completion writing partHashes[part] = hash. -/
def writeHash {β : Type} (v : List (Option β)) (e : ℕ × β) :
    List (Option β) :=
  v.set e.1 (some e.2)

/-- the in-memory hash vector after a sequence of worker completions, in
completion order. -/
def applyWrites {β : Type} (v : List (Option β)) (ws : List (ℕ × β)) :
    List (Option β) :=
  ws.foldl writeHash v

/-- observable effects of one engine run: the parts uploaded and the hash
vectors passed to completeUpload. -/
structure EngineTrace (β : Type) where
  uploadedParts : List ℕ
  completeCalls : List (List (Option β))
deriving DecidableEq, Repr

/-- the engine skeleton for a resumed session: run the session file
check, enumerate the parts whose loaded hash is null, upload them (result
gives the hash each eventually successful upload returns), and call
completeUpload exactly once with the final vector. -/
def runUpload {β : Type} (ctx : UploadContext) (sess : Session)
    (loaded : List (Option β)) (result : ℕ → β) :
    Except String (EngineTrace β) :=
  match sessionFileCheck ctx sess with
  | Except.error e => Except.error e
  | Except.ok _ =>
    let pending := pendingParts loaded
    let final := applyWrites loaded (pending.map fun p => (p, result p))
    Except.ok ⟨pending, [final]⟩

/-- C3 counterexample: a resumed session whose recorded last-modified
timestamp differs from the current file aborts even though force is set;
the claim says force bypasses the check, but ctx.force is never read. -/
theorem resume_force_ignored_counterexample :
    runUpload
        ⟨⟨"backup.img", 10, "2024-02-02T00:00:00.000Z"⟩, true⟩
        ⟨"upload-1", "backup.img", "2024-01-01T00:00:00.000Z", 5, 2⟩
        ([none, none] : List (Option ℕ)) (fun _ => 0)
      = Except.error
          "Cannot resume upload as file has changed since last session" := by
  rfl

/-- C3 amended. Whenever an existing session is resumed, the engine
validates that session.filePath equals the current file path and
session.fileLastChanged equals the current last-modified timestamp, and a
mismatch of either is fatal — the run aborts before any part upload —
unconditionally: the force flag carried by the context is never
consulted. -/
theorem resume_validation_unconditional {β : Type} (ctx : UploadContext)
    (sess : Session) (loaded : List (Option β)) (result : ℕ → β) :
    runUpload ctx sess loaded result
        = Except.error
            "Cannot resume upload as file has changed since last session"
      ↔ (sess.filePath ≠ ctx.file.path ∨
          sess.fileLastChanged ≠ ctx.file.lastModified) := by
  unfold runUpload sessionFileCheck
  by_cases h : sess.filePath ≠ ctx.file.path ∨
      sess.fileLastChanged ≠ ctx.file.lastModified
  · rw [if_pos h]
    simpa using h
  · rw [if_neg h]
    simpa using h

/-- a loaded vector with no null entry has no pending part. -/
theorem pendingParts_eq_nil {β : Type} :
    ∀ (n : ℕ) (l : List (Option β)), (∀ h ∈ l, h ≠ none) →
      ((List.enumFrom n l).filter fun e => e.2.isNone).map Prod.fst = []
  | _, [], _ => rfl
  | n, x :: t, hall => by
    cases x with
    | none => exact absurd rfl (hall none (by simp))
    | some a =>
      rw [List.enumFrom_cons, List.filter_cons]
      simp only [Option.isNone_some, Bool.false_eq_true, if_neg,
        reduceIte]
      exact pendingParts_eq_nil (n + 1) t fun h hm => hall h (by simp [hm])

/-- C6. If at start the state store already holds a part hash for every
index, the engine performs zero uploadPart calls and exactly one
completeUpload call, and the vector passed to completeUpload is exactly
the loaded per-part hashes in index order. -/
theorem resume_idempotence {β : Type} (ctx : UploadContext) (sess : Session)
    (loaded : List (Option β)) (result : ℕ → β)
    (hfile : sess.filePath = ctx.file.path)
    (htime : sess.fileLastChanged = ctx.file.lastModified)
    (hall : ∀ h ∈ loaded, h ≠ none) :
    runUpload ctx sess loaded result = Except.ok ⟨[], [loaded]⟩ := by
  have hchk : sessionFileCheck ctx sess = Except.ok () := by
    unfold sessionFileCheck
    rw [if_neg (by simp [hfile, htime])]
  have hpend : pendingParts loaded = [] := by
    unfold pendingParts
    exact pendingParts_eq_nil 0 loaded hall
  unfold runUpload
  rw [hchk, hpend]
  rfl

/-- concrete instance of C6: two already-hashed parts, zero uploads, one
complete call with the loaded hashes. -/
theorem resume_idempotence_witness :
    ("f" : String) = "f" ∧ ("t" : String) = "t" ∧
      (∀ h ∈ ([some 10, some 20] : List (Option ℕ)), h ≠ none) ∧
      runUpload ⟨⟨"f", 3, "t"⟩, false⟩ ⟨"u", "f", "t", 2, 2⟩
          ([some 10, some 20] : List (Option ℕ)) (fun _ => 0)
        = Except.ok ⟨[], [[some 10, some 20]]⟩ :=
  ⟨rfl, rfl, by decide,
    resume_idempotence ⟨⟨"f", 3, "t"⟩, false⟩ ⟨"u", "f", "t", 2, 2⟩
      [some 10, some 20] (fun _ => 0) rfl rfl (by decide)⟩

/-- worker completions never change the length of the hash vector. -/
theorem applyWrites_length {β : Type} :
    ∀ (ws : List (ℕ × β)) (v : List (Option β)),
      (applyWrites v ws).length = v.length
  | [], _ => rfl
  | e :: rest, v => by
    rw [show applyWrites v (e :: rest) = applyWrites (writeHash v e) rest
        from rfl,
      applyWrites_length rest, writeHash, List.length_set]

/-- indices no completion writes keep their loaded value. -/
theorem applyWrites_not_mem {β : Type} :
    ∀ (ws : List (ℕ × β)) (v : List (Option β)) (n : ℕ),
      n ∉ ws.map Prod.fst → (applyWrites v ws)[n]? = v[n]?
  | [], _, _, _ => rfl
  | e :: rest, v, n, h => by
    have h2 : n ∉ rest.map Prod.fst ∧ e.1 ≠ n := by
      simp only [List.map_cons, List.mem_cons] at h
      push_neg at h
      exact ⟨h.2, fun he => h.1 he.symm⟩
    rw [show applyWrites v (e :: rest) = applyWrites (writeHash v e) rest
        from rfl,
      applyWrites_not_mem rest _ n h2.1, writeHash,
      List.getElem?_set_ne h2.2]

/-- when part indices are distinct, the final vector holds, at index n,
exactly the hash written for part n, regardless of completion order. -/
theorem applyWrites_mem {β : Type} :
    ∀ (ws : List (ℕ × β)) (v : List (Option β)) (n : ℕ) (b : β),
      (n, b) ∈ ws → (ws.map Prod.fst).Nodup → n < v.length →
      (applyWrites v ws)[n]? = some (some b)
  | [], _, _, _, hmem, _, _ => absurd hmem (List.not_mem_nil _)
  | e :: rest, v, n, b, hmem, hnd, hlen => by
    have hnd2 : e.1 ∉ rest.map Prod.fst ∧ (rest.map Prod.fst).Nodup := by
      rw [List.map_cons] at hnd
      exact List.nodup_cons.mp hnd
    rcases List.mem_cons.mp hmem with heq | hmem2
    · have he1 : e.1 = n := by rw [← heq]
      have hn : n ∉ rest.map Prod.fst := by
        rw [← he1]
        exact hnd2.1
      rw [show applyWrites v (e :: rest) = applyWrites (writeHash v e) rest
          from rfl,
        applyWrites_not_mem rest _ n hn, writeHash, ← heq]
      exact List.getElem?_set_self (by simpa using hlen)
    · exact applyWrites_mem rest _ n b hmem2 hnd2.2
        (by rw [writeHash, List.length_set]; exact hlen)

/-- the final vector is invariant under reordering the (distinct-part)
completions. -/
theorem applyWrites_perm {β : Type} {ws ws' : List (ℕ × β)}
    (hperm : ws.Perm ws') :
    (ws.map Prod.fst).Nodup →
      ∀ v : List (Option β), applyWrites v ws = applyWrites v ws' := by
  induction hperm with
  | nil =>
    intro _ v
    rfl
  | cons x h ih =>
    intro hnd v
    rw [List.map_cons] at hnd
    exact ih (List.nodup_cons.mp hnd).2 (writeHash v x)
  | swap x y l =>
    intro hnd v
    rw [List.map_cons, List.map_cons] at hnd
    have hxy : y.1 ≠ x.1 := fun he =>
      (List.nodup_cons.mp hnd).1 (by simp [he])
    show applyWrites (writeHash (writeHash v y) x) l
        = applyWrites (writeHash (writeHash v x) y) l
    unfold writeHash
    rw [List.set_comm _ _ _ hxy]
  | trans h12 h23 ih12 ih23 =>
    intro hnd v
    rw [ih12 hnd v, ih23 ((h12.map Prod.fst).nodup_iff.mp hnd) v]

/-- C7. At the moment completeUpload is invoked the in-memory part-hash
vector has a non-null hash at every index below its length, the vector is
the same whatever order the part uploads completed in, and entry n of the
transmitted vector is exactly the hash produced for part n. -/
theorem completion_vector_sound {β : Type} (loaded : List (Option β))
    (ws ws' : List (ℕ × β))
    (hcover : ∀ n < loaded.length, loaded[n]? = some none →
      n ∈ ws.map Prod.fst)
    (hnd : (ws.map Prod.fst).Nodup)
    (hperm : ws.Perm ws') :
    (∀ n < (applyWrites loaded ws).length,
        (applyWrites loaded ws)[n]? ≠ some none) ∧
    applyWrites loaded ws = applyWrites loaded ws' ∧
    (∀ n b, (n, b) ∈ ws → n < loaded.length →
      (applyWrites loaded ws)[n]? = some (some b)) := by
  refine ⟨?_, applyWrites_perm hperm hnd loaded,
    fun n b hm hl => applyWrites_mem ws loaded n b hm hnd hl⟩
  intro n hn
  rw [applyWrites_length] at hn
  by_cases hmem : n ∈ ws.map Prod.fst
  · obtain ⟨e, he, hfst⟩ := List.mem_map.mp hmem
    have hb : (n, e.2) ∈ ws := by
      rw [show (n, e.2) = e from by rw [← hfst]]
      exact he
    rw [applyWrites_mem ws loaded n e.2 hb hnd hn]
    simp
  · rw [applyWrites_not_mem ws loaded n hmem]
    have hsome : loaded[n]? = some loaded[n] := List.getElem?_eq_getElem hn
    cases hy : loaded[n] with
    | none => exact absurd (hcover n hn (by rw [hsome, hy])) hmem
    | some b =>
      rw [hsome, hy]
      simp

/-- concrete instance of C7: loaded hashes for part 0 only, completions
for parts 2 and 1 arriving out of order. -/
theorem completion_vector_sound_witness :
    (∀ n < ([some 5, none, none] : List (Option ℕ)).length,
        ([some 5, none, none] : List (Option ℕ))[n]? = some none →
        n ∈ ([(2, 9), (1, 7)] : List (ℕ × ℕ)).map Prod.fst) ∧
    (([(2, 9), (1, 7)] : List (ℕ × ℕ)).map Prod.fst).Nodup ∧
    ([(2, 9), (1, 7)] : List (ℕ × ℕ)).Perm [(1, 7), (2, 9)] ∧
    ((∀ n < (applyWrites [some 5, none, none] [(2, 9), (1, 7)]).length,
        (applyWrites [some 5, none, none] [(2, 9), (1, 7)])[n]?
          ≠ some none) ∧
      applyWrites [some 5, none, none] [(2, 9), (1, 7)]
        = applyWrites [some 5, none, none] [(1, 7), (2, 9)] ∧
      (∀ n b, (n, b) ∈ ([(2, 9), (1, 7)] : List (ℕ × ℕ)) →
        n < ([some 5, none, none] : List (Option ℕ)).length →
        (applyWrites [some 5, none, none] [(2, 9), (1, 7)])[n]?
          = some (some b))) :=
  ⟨by decide, by decide, by decide,
    completion_vector_sound [some 5, none, none] [(2, 9), (1, 7)]
      [(1, 7), (2, 9)] (by decide) (by decide) (by decide)⟩

/-! ## Glacier part size policy

nextPowerOfTwo (src/main/ts/service/AWSGlacier/AWSGlacier.ts):

  const nextPowerOfTwo = (n: number) => {
    return Math.pow(2, Math.ceil(Math.log2(n)));
  };

idealPartSize (AWSS3Glacier.ts) returns nextPowerOfTwo(fileSize / 10000),
and upload.ts clamps it:

  Math.max(svc.minPartSize, Math.min(svc.maxPartSize, ideal))

with minPartSize = 1 MiB and maxPartSize = 4 GiB. JavaScript numbers are
modelled by exact rational arithmetic; for n > 0 the exact value of
Math.ceil(Math.log2(n)) is the least integer k with n ≤ 2^k, which is
Int.clog 2 n. -/

/-- maxParts of the Glacier service record. -/
def AWSS3Glacier.maxParts : ℕ := 10000

/-- minPartSize of the Glacier service record: 1 MiB. -/
def AWSS3Glacier.minPartSize : ℕ := 1024 * 1024

/-- maxPartSize of the Glacier service record: 4 GiB. -/
def AWSS3Glacier.maxPartSize : ℕ := 1024 * 1024 * 1024 * 4

/-- nextPowerOfTwo over exact rationals: 2 to the ceiling of log2. -/
def nextPowerOfTwo (n : ℚ) : ℚ := 2 ^ Int.clog 2 n

/-- idealPartSize of the Glacier service. -/
def glacierIdealPartSize (fileSize : ℚ) : ℚ :=
  nextPowerOfTwo (fileSize / (AWSS3Glacier.maxParts : ℚ))

/-- the part size chosen by upload.ts for the Glacier service. -/
def glacierChosenPartSize (fileSize : ℚ) : ℚ :=
  max (AWSS3Glacier.minPartSize : ℚ)
    (min (AWSS3Glacier.maxPartSize : ℚ) (glacierIdealPartSize fileSize))

/-- C8. For the Glacier backend the chosen part size is
nextPowerOfTwo(size / 10000) clamped into [1 MiB, 4 GiB], and for every
file size at least 1 the result is a power of two between 2^20 and 2^32
inclusive. -/
theorem glacier_part_size_power_of_two (size : ℚ) (_hs : 1 ≤ size) :
    glacierChosenPartSize size
        = max ((2 : ℚ) ^ (20 : ℤ))
            (min ((2 : ℚ) ^ (32 : ℤ)) (nextPowerOfTwo (size / 10000))) ∧
    ∃ k : ℤ, 20 ≤ k ∧ k ≤ 32 ∧ glacierChosenPartSize size = (2 : ℚ) ^ k := by
  have hmin : (AWSS3Glacier.minPartSize : ℚ) = (2 : ℚ) ^ (20 : ℤ) := by
    rw [show (20 : ℤ) = ((20 : ℕ) : ℤ) from rfl, zpow_natCast]
    norm_num [AWSS3Glacier.minPartSize]
  have hmax : (AWSS3Glacier.maxPartSize : ℚ) = (2 : ℚ) ^ (32 : ℤ) := by
    rw [show (32 : ℤ) = ((32 : ℕ) : ℤ) from rfl, zpow_natCast]
    norm_num [AWSS3Glacier.maxPartSize]
  have hparts : (AWSS3Glacier.maxParts : ℚ) = 10000 := by
    norm_num [AWSS3Glacier.maxParts]
  have heq : glacierChosenPartSize size
      = max ((2 : ℚ) ^ (20 : ℤ))
          (min ((2 : ℚ) ^ (32 : ℤ)) (nextPowerOfTwo (size / 10000))) := by
    unfold glacierChosenPartSize glacierIdealPartSize
    rw [hmin, hmax, hparts]
  refine ⟨heq, max 20 (min 32 (Int.clog 2 (size / 10000))), ?_, ?_, ?_⟩
  · exact le_max_left _ _
  · exact max_le (by norm_num) (min_le_left _ _)
  · have hmono : Monotone fun k : ℤ => (2 : ℚ) ^ k :=
      (zpow_right_strictMono₀ (by norm_num : (1 : ℚ) < 2)).monotone
    rw [heq]
    unfold nextPowerOfTwo
    rw [← hmono.map_min, ← hmono.map_max]

/-- concrete instance of C8 at size 5000000. -/
theorem glacier_part_size_power_of_two_witness :
    (1 : ℚ) ≤ 5000000 ∧
      (glacierChosenPartSize 5000000
          = max ((2 : ℚ) ^ (20 : ℤ))
              (min ((2 : ℚ) ^ (32 : ℤ)) (nextPowerOfTwo (5000000 / 10000))) ∧
        ∃ k : ℤ, 20 ≤ k ∧ k ≤ 32 ∧
          glacierChosenPartSize 5000000 = (2 : ℚ) ^ k) :=
  ⟨by norm_num, glacier_part_size_power_of_two 5000000 (by norm_num)⟩

/-! ## Percent encoding (percentEncodeBytes, AWS SigV4 signer)

The source, for each character of the input string:

  if ((char >= "A" && char <= "Z") || (char >= "a" && char <= "z")
    || (char >= "0" && char <= "9") || char === "_" || char === "-"
    || char === "~" || char === ".") { encoded.push(char); }
  else if (char === "/") { encoded.push(encodeSlashes ? "%2F" : char); }
  else { encoded.push("%" + char.charCodeAt(0).toString(16).toLocaleUpperCase()); }

Note that Number.prototype.toString(16) does not zero-pad: character
codes below 16 produce a single hex digit. -/

/-- the unreserved test of percentEncodeBytes. -/
def isUnreservedChar (c : Char) : Bool :=
  (Char.ofNat 65 ≤ c && c ≤ Char.ofNat 90)
    || (Char.ofNat 97 ≤ c && c ≤ Char.ofNat 122)
    || (Char.ofNat 48 ≤ c && c ≤ Char.ofNat 57)
    || c == Char.ofNat 95 || c == Char.ofNat 45
    || c == Char.ofNat 126 || c == Char.ofNat 46

/-- charCodeAt(0).toString(16).toLocaleUpperCase(): unpadded uppercase
hexadecimal digits of a character code. -/
def toHexUpper (n : ℕ) : String :=
  String.mk ((Nat.toDigits 16 n).map Char.toUpper)

/-- the per-character encoding of percentEncodeBytes. -/
def encodeChar (encodeSlashes : Bool) (c : Char) : String :=
  if isUnreservedChar c then String.mk [c]
  else if c == Char.ofNat 47 then
    (if encodeSlashes then "%2F" else String.mk [c])
  else "%" ++ toHexUpper c.toNat

/-- percentEncodeBytes: encode each character and join. -/
def percentEncodeBytes (str : String) (encodeSlashes : Bool) : String :=
  String.join (str.data.map (encodeChar encodeSlashes))

/-- C9 counterexample: the line feed character (code 10) is encoded as
"%A", a single hex digit, not the two-digit "%0A" the claim requires. -/
theorem percentEncode_not_two_digit :
    percentEncodeBytes (String.mk [Char.ofNat 10]) true = "%A" ∧
      percentEncodeBytes (String.mk [Char.ofNat 10]) true ≠ "%0A" := by
  constructor
  · rfl
  · decide

set_option maxRecDepth 8192 in
/-- C9 amended. percentEncodeBytes leaves exactly the characters A-Z,
a-z, 0-9, underscore, hyphen, tilde and dot unencoded; a slash is kept
when slash-encoding is disabled and becomes "%2F" otherwise; every other
character becomes "%" followed by its unpadded uppercase hexadecimal
code — a single digit when the code is below 16 (codes 16 to 255 give the
claimed two digits). -/
theorem percentEncode_spec (s : String) (es : Bool) :
    (percentEncodeBytes s es
        = String.join (s.data.map (encodeChar es))) ∧
    (∀ c : Char, isUnreservedChar c = true ↔
        ((Char.ofNat 65 ≤ c ∧ c ≤ Char.ofNat 90) ∨
          (Char.ofNat 97 ≤ c ∧ c ≤ Char.ofNat 122) ∨
          (Char.ofNat 48 ≤ c ∧ c ≤ Char.ofNat 57) ∨
          c = Char.ofNat 95 ∨ c = Char.ofNat 45 ∨
          c = Char.ofNat 126 ∨ c = Char.ofNat 46)) ∧
    (∀ c : Char, isUnreservedChar c = true → encodeChar es c = String.mk [c]) ∧
    (encodeChar es (Char.ofNat 47)
        = if es then "%2F" else String.mk [Char.ofNat 47]) ∧
    (∀ c : Char, isUnreservedChar c = false → c ≠ Char.ofNat 47 →
        encodeChar es c = "%" ++ toHexUpper c.toNat) ∧
    (∀ n : Fin 16, (toHexUpper n.val).length = 1) ∧
    (∀ n : Fin 256, 16 ≤ n.val → (toHexUpper n.val).length = 2) := by
  refine ⟨rfl, ?_, ?_, ?_, ?_, by decide, by decide⟩
  · intro c
    unfold isUnreservedChar
    simp only [Bool.or_eq_true, Bool.and_eq_true, decide_eq_true_eq,
      beq_iff_eq]
    tauto
  · intro c hc
    unfold encodeChar
    rw [if_pos hc]
  · unfold encodeChar
    rw [if_neg (by decide), if_pos (by decide)]
  · intro c hc hne
    unfold encodeChar
    rw [if_neg (by simp [hc]), if_neg (by simpa using hne)]

end Ltsu
